import Mathlib

/-!
Verification development for the madison-rs aggregation/query engine.

The engine (src/lib.rs) converts a set of downloaded repository listings
into a per-package version map (`build_madison_mapping`), serves queries
over it (`generate_madison_structure`, `do_madison`), and refreshes it in
a background loop (madison_web.rs).  This file embeds those functions
shallowly:

* Rust `HashMap`s become association lists carrying an explicit (and, as
  proved below, semantically irrelevant) entry order; `HashSet<String>`
  becomes `Finset String`.
* The external Debian version comparator `deb_version::compare_versions`
  is an opaque parameter `cmp : Cmp`; the spec contracts it to be a total
  order, which appears as explicit hypotheses where needed.
* Rust `String` ordering (`Ord for String`, used for tie-breaks and for
  sorting type labels) is embedded as `strCmp`, lexicographic comparison
  of the character lists (UTF-8 byte order coincides with code-point
  order).
* Fallible I/O (the refresh tick's update check and rebuild) is passed in
  as `Except` values.
-/

namespace Madison

/-- Result type of the external version comparator
`deb_version::compare_versions` (spec section 6: an external, opaque total
order over version strings).  Engine functions take it as a parameter. -/
abbrev Cmp := String → String → Ordering

/-- Comparison of two characters by code point, modelling Rust's byte-wise
comparison of strings (UTF-8 byte order agrees with code-point order). -/
def charCmp (a b : Char) : Ordering := compare a.toNat b.toNat

/-- Lexicographic comparison of character lists. -/
def strCmpAux : List Char → List Char → Ordering
  | [], [] => .eq
  | [], _ :: _ => .lt
  | _ :: _, [] => .gt
  | a :: as, b :: bs =>
    match charCmp a b with
    | .eq => strCmpAux as bs
    | o => o

/-- Rust `Ord for String`: total lexicographic order on strings, used by
the source for group-key tie-breaks and for sorting type labels. -/
def strCmp (a b : String) : Ordering := strCmpAux a.data b.data

/-- Non-strict order induced by `strCmp`. -/
def strLe (a b : String) : Prop := strCmp a b ≠ .gt

instance : DecidableRel strLe := fun a b => by unfold strLe; infer_instance

/-- One package stanza of a repository listing (a fapt package record).
`bin = some src` models `pkg.as_bin()` returning `Some`, with `src` the
optional declared Source field; `bin = none` models a record that is not
a binary package, which the builder skips (src lib.rs line 92). -/
structure PackageRecord where
  name : String
  version : String
  bin : Option (Option String)
deriving DecidableEq

/-- One downloaded repository listing (fapt `DownloadedList`): release
codename, listing component, optional architecture, and the package
records it yields. -/
structure Listing where
  codename : String
  component : String
  arch : Option String
  records : List PackageRecord
deriving DecidableEq

/-- Pluggable key function (src `key_func::KeyFunc`). -/
abbrev KeyFunc := Listing → String

namespace key_func

/-- Built-in key function selecting the release codename (src lib.rs lines 242-244). -/
def codename (l : Listing) : String := l.codename

/-- Built-in key function selecting the component (src lib.rs lines 246-248). -/
def component (l : Listing) : String := l.component

end key_func

/-- A set of availability-type labels (Rust `HashSet<String>`). -/
abbrev TypeSet := Finset String

/-- Association-list lookup, the embedding of `HashMap` lookup. -/
def alookup {κ β : Type} [DecidableEq κ] : List (κ × β) → κ → Option β
  | [], _ => none
  | (k, v) :: rest, p => if p = k then some v else alookup rest p

/-- src `MadisonMapping = HashMap<String, HashMap<(String, String),
HashSet<String>>>`: package name → ((group key, version) → type set),
with each hash map embedded as an association list. -/
abbrev MadisonMapping := List (String × List ((String × String) × TypeSet))

/-- Architecture label of a listing: the declared architecture, or the
sentinel `"unknown!"` when none is declared (src lib.rs lines 101-108). -/
def archLabel (arch : Option String) : String := arch.getD "unknown!"

/-- Resolved true source name of a binary record: the declared Source
field when present, else the record's own name (src lib.rs lines 95-98). -/
def resolvedSource (name : String) (src : Option String) : String := src.getD name

/-- Insert one type label at one name into the record-local `pkg_types`
map (src lib.rs: `entry(..).or_insert(HashSet::new()).insert(..)`). -/
def upsertType (k v : String) : List (String × TypeSet) → List (String × TypeSet)
  | [] => [(k, {v})]
  | (k', s) :: rest =>
    if k = k' then (k', insert v s) :: rest else (k', s) :: upsertType k v rest

/-- The per-record `pkg_types` map (src lib.rs lines 93-108): a
`"source"` contribution at the resolved source name, and the listing's
architecture label at the record's own name. -/
def pkgTypes (arch : Option String) (name : String) (src : Option String) :
    List (String × TypeSet) :=
  upsertType name (archLabel arch) (upsertType (resolvedSource name src) "source" [])

/-- Per-listing local state: package name → (current best version,
accumulated type set) (src lib.rs line 89). -/
abbrev LocalVersions := List (String × String × TypeSet)

/-- Merge one (name, types) contribution carrying `version` into the
local map (src lib.rs lines 109-124): on an occupied entry the types are
unioned in unconditionally, and the best version advances only when
`cmp version current = .gt`; on a vacant entry the pair is inserted. -/
def applyTypes (cmp : Cmp) (version name : String) (tys : TypeSet) :
    LocalVersions → LocalVersions
  | [] => [(name, version, tys)]
  | (n, cv, ts) :: rest =>
    if name = n then
      (n, (if cmp version cv = .gt then version else cv), ts ∪ tys) :: rest
    else
      (n, cv, ts) :: applyTypes cmp version name tys rest

/-- Process one package record within a listing scan (src lib.rs lines
90-125): a non-binary record is skipped; a binary record contributes its
`pkgTypes` entries at its version. -/
def scanRecord (cmp : Cmp) (arch : Option String) (versions : LocalVersions)
    (r : PackageRecord) : LocalVersions :=
  match r.bin with
  | none => versions
  | some src =>
    (pkgTypes arch r.name src).foldl (fun vs e => applyTypes cmp r.version e.1 e.2 vs) versions

/-- One listing's partial result (src lib.rs lines 87-138): scan all
records, then tag every (package, best version, types) with the
listing's group key, giving (package, group key, version, types) tuples. -/
def scanListing (cmp : Cmp) (keyFunc : KeyFunc) (l : Listing) :
    List (String × String × String × TypeSet) :=
  (l.records.foldl (scanRecord cmp l.arch) []).map (fun e => (e.1, keyFunc l, e.2.1, e.2.2))

/-- One (package, group key, version, types) tuple reported by a listing scan. -/
abbrev Contribution := String × String × String × TypeSet

/-- Apply `f` to the inner map stored at `p`, feeding it a fresh empty
map when `p` is vacant (src lib.rs line 143:
`entry(package).or_insert(HashMap::new())`). -/
def outerUpsert (p : String)
    (f : List ((String × String) × TypeSet) → List ((String × String) × TypeSet)) :
    MadisonMapping → MadisonMapping
  | [] => [(p, f [])]
  | (p', e) :: rest => if p = p' then (p', f e) :: rest else (p', e) :: outerUpsert p f rest

/-- Union one contribution into an inner map at its (group key, version)
key (src lib.rs lines 144-149): extend the existing set, or insert. -/
def mergeInner (k : String × String) (tys : TypeSet) :
    List ((String × String) × TypeSet) → List ((String × String) × TypeSet)
  | [] => [(k, tys)]
  | (k', ts) :: rest =>
    if k = k' then (k', ts ∪ tys) :: rest else (k', ts) :: mergeInner k tys rest

/-- Merge a single contribution into the global mapping (src lib.rs lines 142-150). -/
def mergeOne (m : MadisonMapping) (t : Contribution) : MadisonMapping :=
  outerUpsert t.1 (mergeInner (t.2.1, t.2.2.1) t.2.2.2) m

/-- The sequential merge step over all per-listing tuples (src lib.rs lines 141-151). -/
def merge_listings (ts : List Contribution) : MadisonMapping := ts.foldl mergeOne []

/-- src `build_madison_mapping` (lib.rs lines 79-152): per-listing scans
followed by the sequential merge.  A listing read error aborts the whole
build in the source; the success path is embedded here and build failure
is modelled at the refresh tick (`refresh_tick`). -/
def build_madison_mapping (cmp : Cmp) (keyFunc : KeyFunc) (listings : List Listing) :
    MadisonMapping :=
  merge_listings ((listings.map (scanListing cmp keyFunc)).flatten)

/-- Output row (src `MadisonOutputRecord`, lib.rs lines 30-36). -/
structure MadisonOutputRecord where
  package : String
  version : String
  codename : String
  architectures : String
deriving DecidableEq

/-- Suite filter predicate (src lib.rs lines 168-174): keep an entry when
its group key equals the requested suite, or when no suite was supplied. -/
def suiteFilter (suite : Option String) (e : (String × String) × TypeSet) : Bool :=
  match suite with
  | some s => e.1.1 == s
  | none => true

/-- Sort comparator over inner-map entries (src lib.rs lines 176-181):
by version via the external comparator, ties by group key
lexicographically. -/
def entryCmp (cmp : Cmp) (a b : (String × String) × TypeSet) : Ordering :=
  match cmp a.1.2 b.1.2 with
  | .eq => strCmp a.1.1 b.1.1
  | o => o

/-- Non-strict "sorts no later than" order of the entry comparator. -/
def entryLe (cmp : Cmp) (a b : (String × String) × TypeSet) : Prop := entryCmp cmp a b ≠ .gt

instance (cmp : Cmp) : DecidableRel (entryLe cmp) := fun a b => by unfold entryLe; infer_instance

/-- Auxiliary Ordering fact: an outcome that is not `gt` in either
orientation is `eq`. -/
theorem ordering_eq_of_both_ne_gt {o : Ordering} (h1 : o ≠ .gt) (h2 : o.swap ≠ .gt) : o = .eq := by
  cases o
  · exact absurd rfl h2
  · rfl
  · exact absurd rfl h1

theorem charCmp_lt_iff (a b : Char) : charCmp a b = .lt ↔ a.toNat < b.toNat := by
  unfold charCmp
  exact Nat.compare_eq_lt

theorem charCmp_eq_iff (a b : Char) : charCmp a b = .eq ↔ a = b := by
  unfold charCmp
  rw [Nat.compare_eq_eq]
  constructor
  · intro h
    exact Char.eq_of_val_eq (UInt32.ext h)
  · intro h
    rw [h]

theorem charCmp_swap (a b : Char) : charCmp b a = (charCmp a b).swap := by
  unfold charCmp
  rcases Nat.lt_trichotomy a.toNat b.toNat with h | h | h
  · rw [Nat.compare_eq_lt.mpr h, Nat.compare_eq_gt.mpr h]
    decide
  · rw [Nat.compare_eq_eq.mpr h, Nat.compare_eq_eq.mpr h.symm]
    decide
  · rw [Nat.compare_eq_gt.mpr h, Nat.compare_eq_lt.mpr h]
    decide

theorem strCmpAux_swap : ∀ as bs : List Char, strCmpAux bs as = (strCmpAux as bs).swap
  | [], [] => rfl
  | [], _ :: _ => rfl
  | _ :: _, [] => rfl
  | a :: as, b :: bs => by
    simp only [strCmpAux]
    rw [charCmp_swap a b]
    cases h : charCmp a b with
    | eq => exact strCmpAux_swap as bs
    | lt => rfl
    | gt => rfl

theorem strCmpAux_refl : ∀ as : List Char, strCmpAux as as = .eq
  | [] => rfl
  | a :: as => by
    simp only [strCmpAux]
    rw [(charCmp_eq_iff a a).mpr rfl]
    exact strCmpAux_refl as

theorem strCmpAux_eq : ∀ as bs : List Char, strCmpAux as bs = .eq → as = bs
  | [], [] => fun _ => rfl
  | [], _ :: _ => fun h => nomatch h
  | _ :: _, [] => fun h => nomatch h
  | a :: as, b :: bs => by
    simp only [strCmpAux]
    cases h : charCmp a b with
    | eq =>
      intro h'
      rw [(charCmp_eq_iff a b).mp h, strCmpAux_eq as bs h']
    | lt => intro h'; exact nomatch h'
    | gt => intro h'; exact nomatch h' 

theorem strCmpAux_le_trans : ∀ as bs cs : List Char,
    strCmpAux as bs ≠ .gt → strCmpAux bs cs ≠ .gt → strCmpAux as cs ≠ .gt
  | [], bs, cs => fun _ _ => by cases cs <;> simp [strCmpAux]
  | _ :: _, [], _ => fun h1 _ => absurd rfl h1
  | _ :: _, _ :: _, [] => fun _ h2 => absurd rfl h2
  | a :: as, b :: bs, c :: cs => by
    simp only [strCmpAux]
    intro h1 h2
    cases hab : charCmp a b with
    | gt => rw [hab] at h1; exact absurd rfl h1
    | lt =>
      cases hbc : charCmp b c with
      | gt => rw [hbc] at h2; exact absurd rfl h2
      | lt =>
        have hac : charCmp a c = .lt :=
          (charCmp_lt_iff a c).mpr
            (lt_trans ((charCmp_lt_iff a b).mp hab) ((charCmp_lt_iff b c).mp hbc))
        rw [hac]
        intro hh
        exact Ordering.noConfusion hh
      | eq =>
        obtain rfl := (charCmp_eq_iff b c).mp hbc
        rw [hab]
        intro hh
        exact Ordering.noConfusion hh
    | eq =>
      obtain rfl := (charCmp_eq_iff a b).mp hab
      rw [hab] at h1
      cases hac : charCmp a c with
      | gt => rw [hac] at h2; exact absurd rfl h2
      | lt =>
        intro hh
        exact Ordering.noConfusion hh
      | eq =>
        rw [hac] at h2
        exact strCmpAux_le_trans as bs cs h1 h2

theorem strCmp_swap (a b : String) : strCmp b a = (strCmp a b).swap :=
  strCmpAux_swap a.data b.data

theorem strCmp_eq_iff (a b : String) : strCmp a b = .eq ↔ a = b := by
  constructor
  · intro h
    exact String.ext (strCmpAux_eq a.data b.data h)
  · intro h
    rw [h]
    exact strCmpAux_refl b.data

theorem strCmp_le_trans (a b c : String) : strLe a b → strLe b c → strLe a c :=
  strCmpAux_le_trans a.data b.data c.data

instance : IsTrans String strLe := ⟨fun a b c => strCmp_le_trans a b c⟩

instance : IsAntisymm String strLe :=
  ⟨fun a b h1 h2 =>
    (strCmp_eq_iff a b).mp (ordering_eq_of_both_ne_gt h1 (by rw [← strCmp_swap]; exact h2))⟩

instance : IsTotal String strLe :=
  ⟨fun a b => by
    by_cases h : strCmp a b = .gt
    · right
      unfold strLe
      rw [strCmp_swap, h]
      decide
    · left
      exact h⟩

/-- Two sorted permutations are equal when the order is antisymmetric on
the elements of the first list. -/
theorem eq_of_perm_sorted_anti {α : Type} {r : α → α → Prop} :
    ∀ (l₁ l₂ : List α), l₁.Perm l₂ → l₁.Sorted r → l₂.Sorted r →
      (∀ a ∈ l₁, ∀ b ∈ l₁, r a b → r b a → a = b) → l₁ = l₂
  | [], l₂ => fun hperm _ _ _ => by rw [(List.nil_perm.mp hperm).symm]
  | a :: t₁, l₂ => fun hperm hs₁ hs₂ hanti => by
    cases l₂ with
    | nil => exact absurd (List.perm_nil.mp hperm) (List.cons_ne_nil a t₁)
    | cons b t₂ =>
      have hab : a = b := by
        by_cases h : a = b
        · exact h
        · have ha2 : a ∈ b :: t₂ := hperm.mem_iff.mp (List.mem_cons_self a t₁)
          have hat2 : a ∈ t₂ := by
            rcases List.mem_cons.mp ha2 with hh | hh
            · exact absurd hh h
            · exact hh
          have hb1 : b ∈ a :: t₁ := hperm.mem_iff.mpr (List.mem_cons_self b t₂)
          have hbt1 : b ∈ t₁ := by
            rcases List.mem_cons.mp hb1 with hh | hh
            · exact absurd hh.symm h
            · exact hh
          have hrab : r a b := List.rel_of_sorted_cons hs₁ b hbt1
          have hrba : r b a := List.rel_of_sorted_cons hs₂ a hat2
          exact hanti a (List.mem_cons_self a t₁) b hb1 hrab hrba
      subst hab
      have ht : t₁ = t₂ :=
        eq_of_perm_sorted_anti t₁ t₂ hperm.cons_inv hs₁.of_cons hs₂.of_cons
          (fun x hx y hy hxy hyx =>
            hanti x (List.mem_cons_of_mem a hx) y (List.mem_cons_of_mem a hy) hxy hyx)
      rw [ht]

/-- Sorting by the string order is invariant under permutation of the
input, since the order is a decidable linear order. -/
theorem insertionSort_strLe_eq (l₁ l₂ : List String) (h : l₁.Perm l₂) :
    List.insertionSort strLe l₁ = List.insertionSort strLe l₂ :=
  eq_of_perm_sorted_anti _ _
    (((List.perm_insertionSort _ _).trans h).trans (List.perm_insertionSort _ _).symm)
    (List.sorted_insertionSort _ _) (List.sorted_insertionSort _ _)
    (fun a _ b _ hab hba => IsAntisymm.antisymm a b hab hba)

/-- Sorted list of a multiset of strings (the embedding of iterating a
`HashSet<String>` and sorting, src lib.rs lines 191-192). -/
def msort (s : Multiset String) : List String :=
  Quot.liftOn s (fun l => List.insertionSort strLe l)
    (fun a b hab => insertionSort_strLe_eq a b hab)

theorem mem_msort (s : Multiset String) (a : String) : a ∈ msort s ↔ a ∈ s := by
  induction s using Quotient.inductionOn with
  | h l => exact (List.perm_insertionSort strLe l).mem_iff

theorem msort_sorted (s : Multiset String) : (msort s).Sorted strLe := by
  induction s using Quotient.inductionOn with
  | h l => exact List.sorted_insertionSort strLe l

theorem msort_nodup (s : Multiset String) (h : s.Nodup) : (msort s).Nodup := by
  induction s using Quotient.inductionOn with
  | h l => exact (List.perm_insertionSort strLe l).nodup_iff.mpr h

/-- Parts list of the rendered type set (src lib.rs lines 188-193):
`take("source")` first when present, then the remaining labels sorted
by the string order. -/
def typeParts (types : TypeSet) : List String :=
  (if "source" ∈ types then ["source"] else []) ++ msort (types.erase "source").val

/-- Rendered comma-joined type list (src lib.rs line 198). -/
def renderTypes (types : TypeSet) : String := String.intercalate ", " (typeParts types)

/-- Build one output row from one kept entry (src lib.rs lines 186-200). -/
def recordOfEntry (package : String) (e : (String × String) × TypeSet) : MadisonOutputRecord :=
  ⟨package, e.1.2, e.1.1, renderTypes e.2⟩

/-- Filter, sort and render one package's entries (src lib.rs lines
166-203).  `List.insertionSort` is a stable sort by the same comparator
as the source's `sort_by`. -/
def processEntries (cmp : Cmp) (suite : Option String)
    (entries : List ((String × String) × TypeSet)) (package : String) :
    List MadisonOutputRecord :=
  (List.insertionSort (entryLe cmp) (entries.filter (suiteFilter suite))).map
    (recordOfEntry package)

/-- Drop entries whose key was already seen.  This models collecting the
(package, rows) pairs into a `HashMap<String, _>`: a duplicated requested
package maps to identical rows, so the source's last-wins insertion and
this first-wins deduplication denote the same map. -/
def dedupKeysGo {β : Type} (seen : List String) : List (String × β) → List (String × β)
  | [] => []
  | (k, v) :: rest =>
    if k ∈ seen then dedupKeysGo seen rest else (k, v) :: dedupKeysGo (k :: seen) rest

/-- src `generate_madison_structure` (lib.rs lines 154-205): for each
requested package present in the mapping, the filtered, sorted, rendered
rows, keyed by package name. -/
def generate_madison_structure (cmp : Cmp) (m : MadisonMapping) (packages : List String)
    (suite : Option String) : List (String × List MadisonOutputRecord) :=
  dedupKeysGo []
    ((packages.filterMap (fun p => (alookup m p).map (fun e => (p, e)))).map
      (fun pe => (pe.1, processEntries cmp suite pe.2 pe.1)))

/-- `HashMap::remove`: the value at `p`, and the table without that entry. -/
def removeKey {β : Type} : List (String × β) → String → Option (β × List (String × β))
  | [], _ => none
  | (k, v) :: rest, p =>
    if p = k then some (v, rest)
    else (removeKey rest p).map (fun x => (x.1, (k, v) :: x.2))

/-- Row-emission loop of src `do_madison` (lib.rs lines 214-223): walk
the requested packages in order, popping each one's rows from the
generated table; a miss (name absent, or already removed by an earlier
duplicate) contributes nothing. -/
def doMadisonGo : List (String × List MadisonOutputRecord) → List String → List MadisonOutputRecord
  | _, [] => []
  | tbl, p :: rest =>
    match removeKey tbl p with
    | some x => x.1 ++ doMadisonGo x.2 rest
    | none => doMadisonGo tbl rest

/-- The sequence of rows src `do_madison` pushes into the table builder. -/
def do_madison_rows (cmp : Cmp) (m : MadisonMapping) (packages : List String)
    (suite : Option String) : List MadisonOutputRecord :=
  doMadisonGo (generate_madison_structure cmp m packages suite) packages

/-- Width of one column: the longest cell in it. -/
def columnWidth (rows : List MadisonOutputRecord) (cell : MadisonOutputRecord → String) : Nat :=
  rows.foldl (fun w r => max w (cell r).length) 0

/-- Pad a cell on the right to the column width. -/
def padTo (s : String) (w : Nat) : String := s ++ String.mk (List.replicate (w - s.length) ' ')

/-- Modelled from the spec: the external `tabled` crate's text rendering
with `Style::empty().vertical('|')` — one line per pushed row, cells
padded to their column width and joined with vertical separators (spec
section 6: "four columns ... rendered with vertical column separators").
What matters for the claims is that it is a function of the pushed rows. -/
def tabledRender (rows : List MadisonOutputRecord) : List String :=
  rows.map (fun r =>
    String.intercalate "|"
      [" " ++ padTo r.package (columnWidth rows (fun x => x.package)) ++ " ",
       " " ++ padTo r.version (columnWidth rows (fun x => x.version)) ++ " ",
       " " ++ padTo r.codename (columnWidth rows (fun x => x.codename)) ++ " ",
       " " ++ padTo r.architectures (columnWidth rows (fun x => x.architectures)) ++ " "])

/-- Rust `str::trim` over the character list: whitespace stripped from
both ends. -/
def rustTrim (s : String) : String :=
  ⟨((s.data.dropWhile Char.isWhitespace).reverse.dropWhile Char.isWhitespace).reverse⟩

/-- src `do_madison` (lib.rs lines 207-235): emit the grouped rows,
render the table, right-trim every line, join with newlines and append
the single trailing newline. -/
def do_madison (cmp : Cmp) (m : MadisonMapping) (packages : List String)
    (suite : Option String) : String :=
  String.intercalate "\n" ((tabledRender (do_madison_rows cmp m packages suite)).map rustTrim)
    ++ "\n"

/-- Outcome of one refresh tick: the loop continues with a (possibly
replaced) snapshot, or the refresh task panics. -/
inductive TickOutcome where
  | continues (snapshot : MadisonMapping)
  | panics
deriving DecidableEq

/-- One tick of the refresh loop (src madison_web.rs lines 131-150): a
failing `system.update()` is logged with `warn!` and treated as "no
change"; on a reported change the mapping is rebuilt, and a rebuild
failure hits `.expect("build_madison_mapping")`, which panics the
refresh task.  The in-crate variant (src lib.rs lines 356-367) calls
`.unwrap()` on the update check as well, so it panics on either failure. -/
def refresh_tick (snapshot : MadisonMapping) (updateResult : Except String Bool)
    (buildResult : Except String MadisonMapping) : TickOutcome :=
  match updateResult with
  | .error _ => .continues snapshot
  | .ok false => .continues snapshot
  | .ok true =>
    match buildResult with
    | .ok m => .continues m
    | .error _ => .panics

/-- Rows contributed by one requested name: the package's processed rows,
or nothing when the name is absent from the mapping. -/
def rowsFor (cmp : Cmp) (m : MadisonMapping) (suite : Option String) (p : String) :
    List MadisonOutputRecord :=
  ((alookup m p).map (fun e => processEntries cmp suite e p)).getD []

/-- Stated output grouping, following the spec's words: every occurrence
of a requested name contributes that package's rows at its position. -/
def spec_rows_per_occurrence (cmp : Cmp) (m : MadisonMapping) (packages : List String)
    (suite : Option String) : List MadisonOutputRecord :=
  packages.flatMap (rowsFor cmp m suite)

/-- First occurrences of each name, in request order. -/
def firstOccGo (seen : List String) : List String → List String
  | [] => []
  | p :: rest => if p ∈ seen then firstOccGo seen rest else p :: firstOccGo (p :: seen) rest

/-- The requested names with later duplicates dropped. -/
def firstOccurrences (packages : List String) : List String := firstOccGo [] packages

/-- Every contribution's type set for an exact (package, group key,
version) triple. -/
def tripleTypes (ts : List Contribution) (p : String) (k : String × String) : List TypeSet :=
  ts.filterMap (fun t => if p = t.1 ∧ k = (t.2.1, t.2.2.1) then some t.2.2.2 else none)

/-- Union of a list of type sets. -/
def unionAll (l : List TypeSet) : TypeSet := l.foldl (· ∪ ·) ∅

/-- Stated merge result, following the spec's words: the union of every
listing's contribution for the exact triple, absent when no listing
contributed it. -/
def contributionUnion (ts : List Contribution) (p : String) (k : String × String) :
    Option TypeSet :=
  if tripleTypes ts p k = [] then none else some (unionAll (tripleTypes ts p k))

/-- Lookup of one (group key, version) cell of the mapping. -/
def lookup2 (m : MadisonMapping) (p : String) (k : String × String) : Option TypeSet :=
  (alookup m p).bind (fun inner => alookup inner k)

/-- Two stored inner maps agree as maps: same entries, possibly in a
different storage order, each key held once (the `HashMap` invariant). -/
def EntriesEquiv (e₁ e₂ : List ((String × String) × TypeSet)) : Prop :=
  e₁.Perm e₂ ∧ (e₁.map Prod.fst).Nodup

/-- Two embedded mappings hold equal content for every package, allowing
different hash-map storage orders. -/
def MappingEquiv (m₁ m₂ : MadisonMapping) : Prop :=
  ∀ p, Option.Rel EntriesEquiv (alookup m₁ p) (alookup m₂ p)

/-- Row order comparator restated on output rows (the fields are copied
verbatim from the sorted entries by `recordOfEntry`). -/
def recordLe (cmp : Cmp) (a b : MadisonOutputRecord) : Prop :=
  (match cmp a.version b.version with
   | .eq => strCmp a.codename b.codename
   | o => o) ≠ .gt

/-- Lookup after a self-keyed local update: the types are unioned in and
the version advances exactly when the comparator says strictly greater. -/
theorem alookup_applyTypes_self (cmp : Cmp) (v n : String) (tys : TypeSet) :
    ∀ (vs : LocalVersions) (cv : String) (ts : TypeSet),
      alookup vs n = some (cv, ts) →
      alookup (applyTypes cmp v n tys vs) n =
        some ((if cmp v cv = .gt then v else cv), ts ∪ tys)
  | [], cv, ts => fun h => nomatch h
  | (k, cv', ts') :: rest, cv, ts => by
    intro h
    by_cases hk : n = k
    · subst hk
      simp only [alookup, if_pos rfl] at h
      injection h with h'
      injection h' with h1 h2
      simp [applyTypes, alookup, h1, h2]
    · simp only [alookup, if_neg hk] at h
      simp only [applyTypes, if_neg (fun hkn => hk hkn), alookup, if_neg hk]
      exact alookup_applyTypes_self cmp v n tys rest cv ts h

/-- A local update at another name leaves the lookup unchanged. -/
theorem alookup_applyTypes_ne (cmp : Cmp) (v k : String) (tys : TypeSet) (n : String)
    (hn : n ≠ k) :
    ∀ vs : LocalVersions, alookup (applyTypes cmp v k tys vs) n = alookup vs n
  | [] => by simp [applyTypes, alookup, hn]
  | (k', cv, ts) :: rest => by
    by_cases hk : k = k'
    · subst hk
      simp [applyTypes, alookup, hn]
    · simp only [applyTypes, if_neg hk]
      by_cases hn' : n = k'
      · simp [alookup, hn']
      · simp only [alookup, if_neg hn']
        exact alookup_applyTypes_ne cmp v k tys n hn rest

/-- A local update at a vacant name inserts the version and types. -/
theorem alookup_applyTypes_vacant (cmp : Cmp) (v n : String) (tys : TypeSet) :
    ∀ vs : LocalVersions, alookup vs n = none →
      alookup (applyTypes cmp v n tys vs) n = some (v, tys)
  | [] => by simp [applyTypes, alookup]
  | (k, cv, ts) :: rest => by
    intro h
    by_cases hk : n = k
    · simp [alookup, hk] at h
    · simp only [alookup, if_neg hk] at h
      simp only [applyTypes, if_neg (fun hkn => hk hkn), alookup, if_neg hk]
      exact alookup_applyTypes_vacant cmp v n tys rest h

/-- The shape of the per-record `pkg_types` map: one entry when the
record is its own resolved source, two otherwise. -/
theorem pkgTypes_eq (arch : Option String) (name : String) (src : Option String) :
    pkgTypes arch name src =
      if name = resolvedSource name src then
        [(resolvedSource name src, insert (archLabel arch) {"source"})]
      else
        [(resolvedSource name src, ({"source"} : TypeSet)), (name, {archLabel arch})] := by
  unfold pkgTypes
  generalize resolvedSource name src = res
  by_cases h : name = res
  · subst h
    simp [upsertType]
  · simp [upsertType, h]

/-- Unfolding of a binary record's scan step into explicit local updates. -/
theorem scanRecord_eq (cmp : Cmp) (arch : Option String) (vs : LocalVersions)
    (r : PackageRecord) (src : Option String) (h : r.bin = some src) :
    scanRecord cmp arch vs r =
      if r.name = resolvedSource r.name src then
        applyTypes cmp r.version (resolvedSource r.name src)
          (insert (archLabel arch) {"source"}) vs
      else
        applyTypes cmp r.version r.name {archLabel arch}
          (applyTypes cmp r.version (resolvedSource r.name src) {"source"} vs) := by
  obtain ⟨nm, ver, bin⟩ := r
  have h' : bin = some src := h
  subst h'
  show (pkgTypes arch nm src).foldl (fun vs e => applyTypes cmp ver e.1 e.2 vs) vs = _
  rw [pkgTypes_eq]
  by_cases hres : nm = resolvedSource nm src
  · rw [if_pos hres, if_pos hres]
    simp [List.foldl_cons, List.foldl_nil]
  · rw [if_neg hres, if_neg hres]
    simp [List.foldl_cons, List.foldl_nil]

/-- Lookup through the outer upsert of the merge step. -/
theorem alookup_outerUpsert (q : String)
    (f : List ((String × String) × TypeSet) → List ((String × String) × TypeSet)) :
    ∀ (m : MadisonMapping) (p : String),
      alookup (outerUpsert q f m) p =
        if p = q then some (f ((alookup m q).getD [])) else alookup m p
  | [], p => by by_cases h : p = q <;> simp [outerUpsert, alookup, h]
  | (p', e) :: rest, p => by
    by_cases hq : q = p'
    · subst hq
      by_cases hp : p = q <;> simp [outerUpsert, alookup, hp]
    · by_cases hp : p = p'
      · subst hp
        have hpq : ¬ (p = q) := fun hh => hq hh.symm
        simp [outerUpsert, alookup, hq, hpq]
      · by_cases hpq : p = q
        · subst hpq
          simp [outerUpsert, alookup, hq, hp, alookup_outerUpsert p f rest p]
        · simp [outerUpsert, alookup, hq, hp, hpq, alookup_outerUpsert q f rest p]

/-- Lookup through the inner upsert of the merge step. -/
theorem alookup_mergeInner (k : String × String) (tys : TypeSet) :
    ∀ (inner : List ((String × String) × TypeSet)) (q : String × String),
      alookup (mergeInner k tys inner) q =
        if q = k then some ((alookup inner k).getD ∅ ∪ tys) else alookup inner q
  | [], q => by
    by_cases h : q = k <;> simp [mergeInner, alookup, h, Finset.empty_union]
  | (k₀, ts) :: rest, q => by
    by_cases hk : k = k₀
    · subst hk
      by_cases hq : q = k <;> simp [mergeInner, alookup, hq]
    · by_cases hq : q = k₀
      · subst hq
        have hqk : ¬ (q = k) := fun hh => hk hh.symm
        simp [mergeInner, alookup, hk, hqk]
      · by_cases hqk : q = k
        · subst hqk
          simp [mergeInner, alookup, hk, hq, alookup_mergeInner q tys rest q]
        · simp [mergeInner, alookup, hk, hq, hqk, alookup_mergeInner k tys rest q]

/-- Cell lookup after merging a single contribution. -/
theorem lookup2_mergeOne (m : MadisonMapping) (t : Contribution) (p : String)
    (k : String × String) :
    lookup2 (mergeOne m t) p k =
      if p = t.1 ∧ k = (t.2.1, t.2.2.1) then some ((lookup2 m p k).getD ∅ ∪ t.2.2.2)
      else lookup2 m p k := by
  unfold lookup2 mergeOne
  rw [alookup_outerUpsert]
  by_cases hp : p = t.1
  · rw [if_pos hp]
    simp only [Option.some_bind]
    rw [alookup_mergeInner]
    by_cases hk : k = (t.2.1, t.2.2.1)
    · rw [if_pos hk, if_pos ⟨hp, hk⟩, hp, hk]
      cases hm : alookup m t.1 <;> simp [alookup]
    · rw [if_neg hk, if_neg (fun hand => hk hand.2)]
      rw [hp]
      cases hm : alookup m t.1 <;> simp [alookup]
  · rw [if_neg hp, if_neg (fun hand => hp hand.1)]

/-- Prepending the accumulator to a running union. -/
theorem foldl_union_eq (x : TypeSet) : ∀ l : List TypeSet, l.foldl (· ∪ ·) x = x ∪ unionAll l
  | [] => by simp [unionAll]
  | a :: l => by
    unfold unionAll
    rw [List.foldl_cons, List.foldl_cons, foldl_union_eq (x ∪ a) l, foldl_union_eq (∅ ∪ a) l,
      Finset.empty_union, Finset.union_assoc]

theorem unionAll_cons (a : TypeSet) (l : List TypeSet) : unionAll (a :: l) = a ∪ unionAll l := by
  unfold unionAll
  rw [List.foldl_cons, foldl_union_eq, Finset.empty_union]
  rfl

/-- Characterisation of the whole merge fold: every cell holds the
initial contents unioned with all matching contributions. -/
theorem lookup2_foldl_mergeOne :
    ∀ (ts : List Contribution) (m : MadisonMapping) (p : String) (k : String × String),
      lookup2 (ts.foldl mergeOne m) p k =
        if tripleTypes ts p k = [] then lookup2 m p k
        else some ((lookup2 m p k).getD ∅ ∪ unionAll (tripleTypes ts p k))
  | [], m, p, k => by simp [tripleTypes]
  | t :: rest, m, p, k => by
    rw [List.foldl_cons, lookup2_foldl_mergeOne rest (mergeOne m t) p k]
    by_cases hm : p = t.1 ∧ k = (t.2.1, t.2.2.1)
    · have htt : tripleTypes (t :: rest) p k = t.2.2.2 :: tripleTypes rest p k := by
        simp [tripleTypes, hm]
      rw [htt, lookup2_mergeOne, if_pos hm]
      by_cases hr : tripleTypes rest p k = []
      · simp [hr, unionAll_cons, unionAll]
      · rw [if_neg hr, if_neg (List.cons_ne_nil _ _), unionAll_cons]
        cases hmk : lookup2 m p k <;>
          simp [Finset.union_assoc]
    · have htt : tripleTypes (t :: rest) p k = tripleTypes rest p k := by
        simp [tripleTypes, hm]
      rw [htt, lookup2_mergeOne, if_neg hm]

/-- A key absent from the key list is absent from the map. -/
theorem alookup_eq_none {β : Type} :
    ∀ (l : List (String × β)) (p : String), p ∉ l.map Prod.fst → alookup l p = none
  | [], _ => fun _ => rfl
  | (k, v) :: rest, p => by
    intro hp
    simp only [List.map_cons, List.mem_cons] at hp
    push_neg at hp
    simp [alookup, hp.1, alookup_eq_none rest p hp.2]

/-- `HashMap::remove` misses exactly when lookup misses. -/
theorem removeKey_eq_none {β : Type} :
    ∀ (tbl : List (String × β)) (p : String), removeKey tbl p = none ↔ alookup tbl p = none
  | [], p => by simp [removeKey, alookup]
  | (k, v) :: rest, p => by
    by_cases h : p = k
    · simp [removeKey, alookup, h]
    · simp only [removeKey, alookup, if_neg h]
      cases hr : removeKey rest p with
      | none => simp [(removeKey_eq_none rest p).mp hr]
      | some x =>
        have : ¬ (removeKey rest p = none) := by simp [hr]
        simp [hr, (removeKey_eq_none rest p).not.mp this]

/-- What `HashMap::remove` returns: the stored value, a sub-table, with
all other lookups unchanged; removal from a key-nodup table empties the
key and preserves key-nodup. -/
theorem removeKey_some {β : Type} :
    ∀ (tbl : List (String × β)) (p : String) (v : β) (tbl' : List (String × β)),
      removeKey tbl p = some (v, tbl') →
      alookup tbl p = some v ∧
      (∀ q, q ≠ p → alookup tbl' q = alookup tbl q) ∧
      tbl'.Sublist tbl ∧
      ((tbl.map Prod.fst).Nodup →
        alookup tbl' p = none ∧ (tbl'.map Prod.fst).Nodup)
  | [], p, v, tbl' => fun h => nomatch h
  | (k, w) :: rest, p, v, tbl' => by
    by_cases h : p = k
    · subst h
      simp only [removeKey, if_pos rfl]
      intro hsome
      injection hsome with hpair
      injection hpair with h1 h2
      subst h1
      subst h2
      refine ⟨by simp [alookup], ?_, List.sublist_cons_self _ _, ?_⟩
      · intro q hq
        simp [alookup, hq]
      · intro hnodup
        simp only [List.map_cons, List.nodup_cons] at hnodup
        exact ⟨alookup_eq_none rest p hnodup.1, hnodup.2⟩
    · simp only [removeKey, if_neg h]
      intro hsome
      cases hr : removeKey rest p with
      | none => rw [hr] at hsome; exact nomatch hsome
      | some x =>
        rw [hr] at hsome
        obtain ⟨v', rest'⟩ := x
        simp only [Option.map_some'] at hsome
        injection hsome with hpair
        injection hpair with h1 h2
        subst h1
        subst h2
        obtain ⟨ih1, ih2, ihsub, ih3⟩ := removeKey_some rest p v' rest' hr
        refine ⟨by simp [alookup, h, ih1], ?_, List.Sublist.cons₂ _ ihsub, ?_⟩
        · intro q hq
          by_cases hqk : q = k
          · simp [alookup, hqk]
          · simp [alookup, hqk, ih2 q hq]
        · intro hnodup
          simp only [List.map_cons, List.nodup_cons] at hnodup
          obtain ⟨hk, hnd⟩ := hnodup
          obtain ⟨hl, hnd'⟩ := ih3 hnd
          refine ⟨by simp [alookup, h, hl], ?_⟩
          simp only [List.map_cons, List.nodup_cons]
          refine ⟨fun hmem => hk ((ihsub.map Prod.fst).mem hmem), hnd'⟩

/-- Deduplication does not change the first-hit lookup of an unseen key. -/
theorem alookup_dedupKeysGo {β : Type} :
    ∀ (l : List (String × β)) (seen : List String) (p : String), p ∉ seen →
      alookup (dedupKeysGo seen l) p = alookup l p
  | [], _, _ => fun _ => rfl
  | (k, v) :: rest, seen, p => by
    intro hp
    by_cases hk : k ∈ seen
    · have hpk : ¬ p = k := fun hh => hp (hh ▸ hk)
      simp only [dedupKeysGo, if_pos hk, alookup, if_neg hpk]
      exact alookup_dedupKeysGo rest seen p hp
    · simp only [dedupKeysGo, if_neg hk]
      by_cases hpk : p = k
      · simp [alookup, hpk]
      · have hmem : p ∉ k :: seen := by
          simp only [List.mem_cons]
          push_neg
          exact ⟨hpk, hp⟩
        simp only [alookup, if_neg hpk]
        exact alookup_dedupKeysGo rest (k :: seen) p hmem

/-- Deduplicated tables have nodup keys, none of them previously seen. -/
theorem dedupKeysGo_nodup {β : Type} :
    ∀ (l : List (String × β)) (seen : List String),
      ((dedupKeysGo seen l).map Prod.fst).Nodup ∧
        ∀ k ∈ (dedupKeysGo seen l).map Prod.fst, k ∉ seen
  | [], seen => by simp [dedupKeysGo]
  | (k, v) :: rest, seen => by
    by_cases hk : k ∈ seen
    · simp only [dedupKeysGo, if_pos hk]
      exact dedupKeysGo_nodup rest seen
    · simp only [dedupKeysGo, if_neg hk, List.map_cons, List.nodup_cons]
      obtain ⟨ih1, ih2⟩ := dedupKeysGo_nodup rest (k :: seen)
      refine ⟨⟨fun hmem => (ih2 k hmem) (List.mem_cons_self k seen), ih1⟩, ?_⟩
      intro q hq
      rcases List.mem_cons.mp hq with hh | hh
      · rw [hh]; exact hk
      · exact fun hqseen => (ih2 q hh) (List.mem_cons_of_mem k hqseen)

/-- Every kept entry of a deduplicated table occurs in the original. -/
theorem mem_dedupKeysGo {β : Type} :
    ∀ (l : List (String × β)) (seen : List String) (x : String × β),
      x ∈ dedupKeysGo seen l → x ∈ l
  | [], _, x => by intro h; simp [dedupKeysGo] at h
  | (k, v) :: rest, seen, x => by
    intro h
    by_cases hk : k ∈ seen
    · simp only [dedupKeysGo, if_pos hk] at h
      exact List.mem_cons_of_mem _ (mem_dedupKeysGo rest seen x h)
    · simp only [dedupKeysGo, if_neg hk] at h
      rcases List.mem_cons.mp h with hh | hh
      · rw [hh]; exact List.mem_cons_self _ _
      · exact List.mem_cons_of_mem _ (mem_dedupKeysGo rest (k :: seen) x hh)

/-- Lookup into the pre-deduplication generated table. -/
theorem alookup_filterMapped (cmp : Cmp) (m : MadisonMapping) (suite : Option String) :
    ∀ (packages : List String) (q : String),
      alookup
        ((packages.filterMap (fun p => (alookup m p).map (fun e => (p, e)))).map
          (fun pe => (pe.1, processEntries cmp suite pe.2 pe.1))) q =
      if q ∈ packages then (alookup m q).map (fun e => processEntries cmp suite e q) else none
  | [], q => by simp [alookup]
  | p :: rest, q => by
    cases hm : alookup m p with
    | none =>
      simp only [List.filterMap_cons, hm, Option.map_none']
      rw [alookup_filterMapped cmp m suite rest q]
      by_cases hq : q = p
      · subst hq
        by_cases hmem : q ∈ rest <;> simp [hmem, hm]
      · simp [List.mem_cons, hq]
    | some e =>
      simp only [List.filterMap_cons, hm, Option.map_some', List.map_cons]
      by_cases hq : q = p
      · subst hq
        simp [alookup, hm]
      · simp only [alookup, if_neg hq]
        rw [alookup_filterMapped cmp m suite rest q]
        simp [List.mem_cons, hq]

/-- Lookup into the generated structure for a requested package. -/
theorem alookup_generate (cmp : Cmp) (m : MadisonMapping) (suite : Option String)
    (packages : List String) (q : String) (hq : q ∈ packages) :
    alookup (generate_madison_structure cmp m packages suite) q =
      (alookup m q).map (fun e => processEntries cmp suite e q) := by
  unfold generate_madison_structure
  rw [alookup_dedupKeysGo _ [] q (List.not_mem_nil q), alookup_filterMapped, if_pos hq]

/-- Names produced by the first-occurrence scan were not yet seen. -/
theorem firstOccGo_not_mem :
    ∀ (l seen : List String) (q : String), q ∈ firstOccGo seen l → q ∉ seen
  | [], _, q => by intro h; simp [firstOccGo] at h
  | p :: rest, seen, q => by
    intro h
    by_cases hp : p ∈ seen
    · simp only [firstOccGo, if_pos hp] at h
      exact firstOccGo_not_mem rest seen q h
    · simp only [firstOccGo, if_neg hp] at h
      rcases List.mem_cons.mp h with hh | hh
      · rw [hh]; exact hp
      · exact fun hq => firstOccGo_not_mem rest (p :: seen) q hh (List.mem_cons_of_mem p hq)

/-- Names produced by the first-occurrence scan come from the input. -/
theorem firstOccGo_subset :
    ∀ (l seen : List String) (q : String), q ∈ firstOccGo seen l → q ∈ l
  | [], _, q => by intro h; simp [firstOccGo] at h
  | p :: rest, seen, q => by
    intro h
    by_cases hp : p ∈ seen
    · simp only [firstOccGo, if_pos hp] at h
      exact List.mem_cons_of_mem _ (firstOccGo_subset rest seen q h)
    · simp only [firstOccGo, if_neg hp] at h
      rcases List.mem_cons.mp h with hh | hh
      · rw [hh]; exact List.mem_cons_self _ _
      · exact List.mem_cons_of_mem _ (firstOccGo_subset rest (p :: seen) q hh)

/-- The row-emission loop over a key-nodup table emits, for the first
occurrence of each requested name, exactly the stored rows. -/
theorem doMadisonGo_eq :
    ∀ (ps : List String) (tbl : List (String × List MadisonOutputRecord)) (seen : List String),
      (tbl.map Prod.fst).Nodup →
      (∀ p ∈ seen, alookup tbl p = none) →
      doMadisonGo tbl ps = (firstOccGo seen ps).flatMap (fun p => (alookup tbl p).getD [])
  | [], tbl, seen => by
    intro _ _
    simp [doMadisonGo, firstOccGo]
  | p :: rest, tbl, seen => by
    intro hnodup hseen
    by_cases hp : p ∈ seen
    · have hlz : alookup tbl p = none := hseen p hp
      have hrz : removeKey tbl p = none := (removeKey_eq_none tbl p).mpr hlz
      simp only [doMadisonGo, hrz, firstOccGo, if_pos hp]
      exact doMadisonGo_eq rest tbl seen hnodup hseen
    · cases hrk : removeKey tbl p with
      | none =>
        have hlz : alookup tbl p = none := (removeKey_eq_none tbl p).mp hrk
        have hinv : ∀ x ∈ p :: seen, alookup tbl x = none := by
          intro x hx
          rcases List.mem_cons.mp hx with hh | hh
          · rw [hh]; exact hlz
          · exact hseen x hh
        simp only [doMadisonGo, hrk, firstOccGo, if_neg hp, List.flatMap_cons, hlz]
        rw [doMadisonGo_eq rest tbl (p :: seen) hnodup hinv]
        simp
      | some x =>
        obtain ⟨v, tbl'⟩ := x
        obtain ⟨hv, hother, _, hnod⟩ := removeKey_some tbl p v tbl' hrk
        obtain ⟨hnone, hnodup'⟩ := hnod hnodup
        have hinv : ∀ x ∈ p :: seen, alookup tbl' x = none := by
          intro x hx
          rcases List.mem_cons.mp hx with hh | hh
          · rw [hh]; exact hnone
          · have hxp : x ≠ p := fun heq => hp (heq ▸ hh)
            exact (hother x hxp).trans (hseen x hh)
        simp only [doMadisonGo, hrk, firstOccGo, if_neg hp, List.flatMap_cons, hv]
        rw [doMadisonGo_eq rest tbl' (p :: seen) hnodup' hinv]
        simp only [Option.getD_some]
        congr 1
        apply List.flatMap_congr
        intro q hq
        have hqp : q ≠ p :=
          fun hh => (firstOccGo_not_mem rest (p :: seen) q hq) (hh ▸ List.mem_cons_self p seen)
        rw [hother q hqp]

/-- The rows pushed by `do_madison`: each distinct requested name, at its
first occurrence, contributes its package's rows. -/
theorem do_madison_rows_eq (cmp : Cmp) (m : MadisonMapping) (packages : List String)
    (suite : Option String) :
    do_madison_rows cmp m packages suite =
      (firstOccurrences packages).flatMap (rowsFor cmp m suite) := by
  unfold do_madison_rows firstOccurrences generate_madison_structure
  rw [doMadisonGo_eq packages _ [] (dedupKeysGo_nodup _ []).1
    (fun x hx => absurd hx (List.not_mem_nil x))]
  apply List.flatMap_congr
  intro q hq
  simp only [rowsFor]
  rw [alookup_dedupKeysGo _ [] q (List.not_mem_nil q), alookup_filterMapped,
    if_pos (firstOccGo_subset packages [] q hq)]

/-- Strictness propagates through a comparator satisfying the total-order
contract: strictly-less then less-or-equal is strictly less. -/
theorem cmp_lt_of_lt_le (cmp : Cmp) (hS : ∀ a b, cmp b a = (cmp a b).swap)
    (hT : ∀ a b c, cmp a b ≠ .gt → cmp b c ≠ .gt → cmp a c ≠ .gt)
    (a b c : String) (hab : cmp a b = .lt) (hbc : cmp b c ≠ .gt) : cmp a c = .lt := by
  have h1 : cmp a c ≠ .gt := hT a b c (by simp [hab]) hbc
  cases hac : cmp a c with
  | lt => rfl
  | gt => exact absurd hac h1
  | eq =>
    have hca : cmp c a ≠ .gt := by rw [hS a c, hac]; decide
    have hba : cmp b a ≠ .gt := hT b c a hbc hca
    have hgt : cmp b a = .gt := by rw [hS a b, hab]; rfl
    exact absurd hgt hba

/-- Less-or-equal then strictly-less is strictly less. -/
theorem cmp_lt_of_le_lt (cmp : Cmp) (hS : ∀ a b, cmp b a = (cmp a b).swap)
    (hT : ∀ a b c, cmp a b ≠ .gt → cmp b c ≠ .gt → cmp a c ≠ .gt)
    (a b c : String) (hab : cmp a b ≠ .gt) (hbc : cmp b c = .lt) : cmp a c = .lt := by
  have h1 : cmp a c ≠ .gt := hT a b c hab (by simp [hbc])
  cases hac : cmp a c with
  | lt => rfl
  | gt => exact absurd hac h1
  | eq =>
    have hca : cmp c a ≠ .gt := by rw [hS a c, hac]; decide
    have hcb : cmp c b ≠ .gt := hT c a b hca hab
    have hgt : cmp c b = .gt := by rw [hS b c, hbc]; rfl
    exact absurd hgt hcb

/-- Comparator equality is transitive under the total-order contract. -/
theorem cmp_eq_trans (cmp : Cmp) (hS : ∀ a b, cmp b a = (cmp a b).swap)
    (hT : ∀ a b c, cmp a b ≠ .gt → cmp b c ≠ .gt → cmp a c ≠ .gt)
    (a b c : String) (hab : cmp a b = .eq) (hbc : cmp b c = .eq) : cmp a c = .eq := by
  have h1 : cmp a c ≠ .gt := hT a b c (by simp [hab]) (by simp [hbc])
  have h2 : cmp c a ≠ .gt := hT c b a (by rw [hS b c, hbc]; decide) (by rw [hS a b, hab]; decide)
  have h2' : (cmp a c).swap ≠ .gt := by rw [← hS a c]; exact h2
  exact ordering_eq_of_both_ne_gt h1 h2'

/-- The entry comparator swaps with its arguments. -/
theorem entryCmp_swap (cmp : Cmp) (hS : ∀ a b, cmp b a = (cmp a b).swap)
    (a b : (String × String) × TypeSet) : entryCmp cmp b a = (entryCmp cmp a b).swap := by
  unfold entryCmp
  rw [hS a.1.2 b.1.2]
  cases h : cmp a.1.2 b.1.2 with
  | lt => rfl
  | gt => rfl
  | eq => exact strCmp_swap a.1.1 b.1.1

/-- The entry order is total. -/
theorem entryLe_total (cmp : Cmp) (hS : ∀ a b, cmp b a = (cmp a b).swap) :
    ∀ a b, entryLe cmp a b ∨ entryLe cmp b a := by
  intro a b
  by_cases h : entryCmp cmp a b = .gt
  · right
    unfold entryLe
    rw [entryCmp_swap cmp hS a b, h]
    decide
  · left
    exact h

/-- The entry order is transitive under the total-order contract. -/
theorem entryLe_trans (cmp : Cmp) (hS : ∀ a b, cmp b a = (cmp a b).swap)
    (hT : ∀ a b c, cmp a b ≠ .gt → cmp b c ≠ .gt → cmp a c ≠ .gt) :
    ∀ a b c, entryLe cmp a b → entryLe cmp b c → entryLe cmp a c := by
  intro a b c h1 h2
  unfold entryLe entryCmp at h1 h2 ⊢
  cases hab : cmp a.1.2 b.1.2 with
  | gt => rw [hab] at h1; exact absurd rfl h1
  | lt =>
    have hbc' : cmp b.1.2 c.1.2 ≠ .gt := by
      intro hgt
      rw [hgt] at h2
      exact h2 rfl
    have hac : cmp a.1.2 c.1.2 = .lt := cmp_lt_of_lt_le cmp hS hT _ _ _ hab hbc'
    rw [hac]
    exact fun hh => Ordering.noConfusion hh
  | eq =>
    rw [hab] at h1
    cases hbc : cmp b.1.2 c.1.2 with
    | gt => rw [hbc] at h2; exact absurd rfl h2
    | lt =>
      have hac : cmp a.1.2 c.1.2 = .lt :=
        cmp_lt_of_le_lt cmp hS hT _ _ _ (by simp [hab]) hbc
      rw [hac]
      exact fun hh => Ordering.noConfusion hh
    | eq =>
      rw [hbc] at h2
      have hac : cmp a.1.2 c.1.2 = .eq := cmp_eq_trans cmp hS hT _ _ _ hab hbc
      rw [hac]
      exact strCmp_le_trans a.1.1 b.1.1 c.1.1 h1 h2

/-- Two entries that sort no later than each other have equal keys, when
the comparator is antisymmetric as the spec contracts. -/
theorem entryLe_keys_eq (cmp : Cmp) (hS : ∀ a b, cmp b a = (cmp a b).swap)
    (hA : ∀ a b, cmp a b = .eq → a = b)
    (a b : (String × String) × TypeSet) (h1 : entryLe cmp a b) (h2 : entryLe cmp b a) :
    a.1 = b.1 := by
  have h2' : (entryCmp cmp a b).swap ≠ .gt := by
    rw [← entryCmp_swap cmp hS a b]
    exact h2
  have heq : entryCmp cmp a b = .eq := ordering_eq_of_both_ne_gt h1 h2'
  unfold entryCmp at heq
  cases hab : cmp a.1.2 b.1.2 with
  | lt => rw [hab] at heq; exact nomatch heq
  | gt => rw [hab] at heq; exact nomatch heq
  | eq =>
    rw [hab] at heq
    exact Prod.ext ((strCmp_eq_iff _ _).mp heq) (hA _ _ hab)

/-- Processing is invariant under the inner hash map's storage order. -/
theorem processEntries_congr (cmp : Cmp)
    (hS : ∀ a b, cmp b a = (cmp a b).swap)
    (hT : ∀ a b c, cmp a b ≠ .gt → cmp b c ≠ .gt → cmp a c ≠ .gt)
    (hA : ∀ a b, cmp a b = .eq → a = b)
    (suite : Option String) (p : String)
    (e₁ e₂ : List ((String × String) × TypeSet))
    (hperm : e₁.Perm e₂) (hnodup : (e₁.map Prod.fst).Nodup) :
    processEntries cmp suite e₁ p = processEntries cmp suite e₂ p := by
  unfold processEntries
  haveI : IsTotal ((String × String) × TypeSet) (entryLe cmp) := ⟨entryLe_total cmp hS⟩
  haveI : IsTrans ((String × String) × TypeSet) (entryLe cmp) := ⟨entryLe_trans cmp hS hT⟩
  have hfp : (e₁.filter (suiteFilter suite)).Perm (e₂.filter (suiteFilter suite)) :=
    hperm.filter _
  have hsort₁ := List.sorted_insertionSort (entryLe cmp) (e₁.filter (suiteFilter suite))
  have hsort₂ := List.sorted_insertionSort (entryLe cmp) (e₂.filter (suiteFilter suite))
  have hsp :
      (List.insertionSort (entryLe cmp) (e₁.filter (suiteFilter suite))).Perm
        (List.insertionSort (entryLe cmp) (e₂.filter (suiteFilter suite))) :=
    ((List.perm_insertionSort _ _).trans hfp).trans (List.perm_insertionSort _ _).symm
  have hanti : ∀ a ∈ List.insertionSort (entryLe cmp) (e₁.filter (suiteFilter suite)),
      ∀ b ∈ List.insertionSort (entryLe cmp) (e₁.filter (suiteFilter suite)),
      entryLe cmp a b → entryLe cmp b a → a = b := by
    intro a ha b hb hab hba
    have ha1 : a ∈ e₁ :=
      List.mem_of_mem_filter ((List.perm_insertionSort _ _).mem_iff.mp ha)
    have hb1 : b ∈ e₁ :=
      List.mem_of_mem_filter ((List.perm_insertionSort _ _).mem_iff.mp hb)
    exact List.inj_on_of_nodup_map hnodup ha1 hb1 (entryLe_keys_eq cmp hS hA a b hab hba)
  rw [eq_of_perm_sorted_anti _ _ hsp hsort₁ hsort₂ hanti]

/-- The processed rows of one package are pairwise ordered by version
then group key. -/
theorem processEntries_sorted (cmp : Cmp)
    (hS : ∀ a b, cmp b a = (cmp a b).swap)
    (hT : ∀ a b c, cmp a b ≠ .gt → cmp b c ≠ .gt → cmp a c ≠ .gt)
    (suite : Option String) (p : String) (e : List ((String × String) × TypeSet)) :
    (processEntries cmp suite e p).Pairwise (recordLe cmp) := by
  unfold processEntries
  haveI : IsTotal ((String × String) × TypeSet) (entryLe cmp) := ⟨entryLe_total cmp hS⟩
  haveI : IsTrans ((String × String) × TypeSet) (entryLe cmp) := ⟨entryLe_trans cmp hS hT⟩
  exact List.Pairwise.map _ (fun a b hab => hab)
    (List.sorted_insertionSort (entryLe cmp) (e.filter (suiteFilter suite)))

/-- A flat map over contributions that are all empty is empty. -/
theorem flatMap_eq_nil {α β : Type} (f : α → List β) (hf : ∀ x, f x = []) :
    ∀ l : List α, l.flatMap f = []
  | [] => rfl
  | a :: rest => by simp [List.flatMap_cons, hf a, flatMap_eq_nil f hf rest]

/-- Names contributing nothing can be filtered out of a flat map. -/
theorem flatMap_filter_ne {α : Type} (f : String → List α) (name : String)
    (hf : f name = []) :
    ∀ l : List String, (l.filter (fun q => q != name)).flatMap f = l.flatMap f
  | [] => rfl
  | p :: rest => by
    by_cases hp : p = name
    · subst hp
      simp [List.filter_cons, List.flatMap_cons, hf, flatMap_filter_ne f p hf rest]
    · simp [List.filter_cons, hp, List.flatMap_cons, flatMap_filter_ne f name hf rest]

/-- The first-occurrence scan only inspects membership of its seen set on
names of the input list. -/
theorem firstOccGo_congr :
    ∀ (l seen₁ seen₂ : List String),
      (∀ q ∈ l, (q ∈ seen₁ ↔ q ∈ seen₂)) →
      firstOccGo seen₁ l = firstOccGo seen₂ l
  | [], _, _ => fun _ => rfl
  | p :: rest, seen₁, seen₂ => fun h => by
    by_cases hp : p ∈ seen₁
    · have hp₂ : p ∈ seen₂ := (h p (List.mem_cons_self p rest)).mp hp
      simp only [firstOccGo, if_pos hp, if_pos hp₂]
      exact firstOccGo_congr rest seen₁ seen₂ (fun q hq => h q (List.mem_cons_of_mem p hq))
    · have hp₂ : p ∉ seen₂ := fun hc => hp ((h p (List.mem_cons_self p rest)).mpr hc)
      simp only [firstOccGo, if_neg hp, if_neg hp₂]
      rw [firstOccGo_congr rest (p :: seen₁) (p :: seen₂) ?_]
      intro q hq
      simp only [List.mem_cons]
      exact or_congr Iff.rfl (h q (List.mem_cons_of_mem p hq))

/-- Filtering a name out of the request commutes with the
first-occurrence scan. -/
theorem firstOccGo_filter (name : String) :
    ∀ (l seen : List String),
      firstOccGo seen (l.filter (fun q => q != name)) =
        (firstOccGo seen l).filter (fun q => q != name)
  | [], _ => rfl
  | p :: rest, seen => by
    by_cases hp : p = name
    · subst hp
      by_cases hseen : p ∈ seen
      · simp only [List.filter_cons, bne_self_eq_false, Bool.false_eq_true, if_false,
          firstOccGo, if_pos hseen]
        exact firstOccGo_filter p rest seen
      · simp only [List.filter_cons, bne_self_eq_false, Bool.false_eq_true, if_false,
          firstOccGo, if_neg hseen]
        rw [← firstOccGo_filter p rest (p :: seen)]
        apply firstOccGo_congr
        intro q hq
        have hqn : q ≠ p := by
          have hmem := List.of_mem_filter hq
          exact bne_iff_ne.mp hmem
        simp [List.mem_cons, hqn]
    · have hpb : (p != name) = true := bne_iff_ne.mpr hp
      by_cases hseen : p ∈ seen
      · simp only [List.filter_cons, hpb, if_true, firstOccGo, if_pos hseen]
        exact firstOccGo_filter name rest seen
      · simp only [List.filter_cons, hpb, if_true, firstOccGo, if_neg hseen]
        rw [firstOccGo_filter name rest (p :: seen)]

/-- Union of a permuted list of type sets. -/
theorem unionAll_perm (l₁ l₂ : List TypeSet) (h : l₁.Perm l₂) : unionAll l₁ = unionAll l₂ := by
  unfold unionAll
  haveI : RightCommutative (fun (x1 : TypeSet) (x2 : TypeSet) => x1 ∪ x2) :=
    ⟨fun b a₁ a₂ => Finset.union_right_comm b a₁ a₂⟩
  exact h.foldl_eq ∅

/-- The per-triple contributions of permuted tuple lists are permuted. -/
theorem tripleTypes_perm (ts ts' : List Contribution) (h : ts.Perm ts') (p : String)
    (k : String × String) : (tripleTypes ts p k).Perm (tripleTypes ts' p k) :=
  h.filterMap _

/-- The stated per-triple union is invariant under contribution order. -/
theorem contributionUnion_perm (ts ts' : List Contribution) (h : ts.Perm ts') (p : String)
    (k : String × String) : contributionUnion ts' p k = contributionUnion ts p k := by
  unfold contributionUnion
  have hp := tripleTypes_perm ts ts' h p k
  by_cases hnil : tripleTypes ts p k = []
  · have hnil' : tripleTypes ts' p k = [] := by
      rw [hnil] at hp
      exact List.nil_perm.mp hp
    simp [hnil, hnil']
  · have hnil' : tripleTypes ts' p k ≠ [] := fun hc => hnil (by
      rw [hc] at hp
      exact List.perm_nil.mp hp)
    rw [if_neg hnil, if_neg hnil', unionAll_perm _ _ hp]

/-- Every generated (package, rows) pair comes from a mapping hit. -/
theorem mem_generate (cmp : Cmp) (m : MadisonMapping) (packages : List String)
    (suite : Option String) (p : String) (rows : List MadisonOutputRecord)
    (h : (p, rows) ∈ generate_madison_structure cmp m packages suite) :
    ∃ e, alookup m p = some e ∧ rows = processEntries cmp suite e p := by
  unfold generate_madison_structure at h
  have h' := mem_dedupKeysGo _ [] _ h
  rcases List.mem_map.mp h' with ⟨pe, hpe, heq⟩
  rcases List.mem_filterMap.mp hpe with ⟨q, _, hsome⟩
  cases halo : alookup m q with
  | none => rw [halo] at hsome; exact nomatch hsome
  | some e =>
    rw [halo] at hsome
    simp only [Option.map_some'] at hsome
    injection hsome with hpe'
    subst hpe'
    injection heq with h1 h2
    subst h1
    exact ⟨e, halo, h2.symm⟩

/-- C2 counterexample: the claim states that on every tick whose rebuild
fails the loop continues with the previous snapshot retained; on the
code, a failing rebuild hits `.expect("build_madison_mapping")` and the
refresh task panics instead of continuing, shown here at the empty
snapshot with a reported change and a failing build. -/
theorem claim_C2_counterexample :
    refresh_tick [] (Except.ok true) (Except.error "io error") ≠
      TickOutcome.continues [] := by
  decide

/-- C2 (amended): a failing update check is logged and non-fatal — the
loop continues with the snapshot unchanged — and so is a no-change tick;
a successful rebuild replaces the snapshot; but a tick whose rebuild
fails panics the refresh task: the snapshot is never corrupted, yet the
loop does not continue. -/
theorem claim_C2 (s : MadisonMapping) (e : String) (b : Except String MadisonMapping)
    (m : MadisonMapping) :
    refresh_tick s (Except.error e) b = TickOutcome.continues s ∧
    refresh_tick s (Except.ok false) b = TickOutcome.continues s ∧
    refresh_tick s (Except.ok true) (Except.ok m) = TickOutcome.continues m ∧
    refresh_tick s (Except.ok true) (Except.error e) = TickOutcome.panics :=
  ⟨rfl, rfl, rfl, rfl⟩

/-- C1 counterexample: the claim states that every occurrence of a
requested name contributes that package's rows at its position; on the
code, `do_madison` removes each package's rows from the generated map,
so the second occurrence of "foo" finds nothing and contributes no rows. -/
theorem claim_C1_counterexample :
    do_madison_rows strCmp
        [("foo", [(("bionic", "1.0"), ({"source"} : TypeSet))])] ["foo", "foo"] none ≠
      spec_rows_per_occurrence strCmp
        [("foo", [(("bionic", "1.0"), ({"source"} : TypeSet))])] ["foo", "foo"] none := by
  decide

/-- C1 (amended): the output of `do_madison` groups rows by requested
package in the caller's requested order, but only the first occurrence of
each distinct requested name contributes that package's rows; later
duplicates contribute nothing. -/
theorem claim_C1 (cmp : Cmp) (m : MadisonMapping) (packages : List String)
    (suite : Option String) :
    do_madison_rows cmp m packages suite =
      spec_rows_per_occurrence cmp m (firstOccurrences packages) suite :=
  do_madison_rows_eq cmp m packages suite

/-- C9: a requested name absent from the mapping contributes zero rows —
removing all its occurrences from the request leaves the output rows
unchanged — and the explicit empty mapping held before the first
successful build answers every query with the empty row list and the
bare-newline rendered output, never an error. -/
theorem claim_C9 (cmp : Cmp) (m : MadisonMapping) (name : String)
    (habs : alookup m name = none) :
    (∀ (packages : List String) (suite : Option String),
        do_madison_rows cmp m packages suite =
          do_madison_rows cmp m (packages.filter (fun q => q != name)) suite) ∧
    (∀ (packages : List String) (suite : Option String),
        do_madison_rows cmp ([] : MadisonMapping) packages suite = [] ∧
        do_madison cmp [] packages suite = "\n") := by
  constructor
  · intro packages suite
    rw [do_madison_rows_eq, do_madison_rows_eq]
    unfold firstOccurrences
    rw [firstOccGo_filter name packages []]
    exact (flatMap_filter_ne (rowsFor cmp m suite) name (by simp [rowsFor, habs]) _).symm
  · intro packages suite
    have hrows : do_madison_rows cmp ([] : MadisonMapping) packages suite = [] := by
      rw [do_madison_rows_eq]
      exact flatMap_eq_nil _ (fun x => by simp [rowsFor, alookup]) _
    refine ⟨hrows, ?_⟩
    unfold do_madison
    rw [hrows]
    rfl

/-- C9 witness: a concrete mapping holding only "foo"; the absent name
"zzz" contributes nothing to a concrete query. -/
theorem claim_C9_witness :
    alookup ([("foo", [(("bionic", "1.0"), ({"source"} : TypeSet))])] : MadisonMapping)
        "zzz" = none ∧
    do_madison_rows strCmp [("foo", [(("bionic", "1.0"), ({"source"} : TypeSet))])]
        ["zzz", "foo"] none =
      do_madison_rows strCmp [("foo", [(("bionic", "1.0"), ({"source"} : TypeSet))])]
        (["zzz", "foo"].filter (fun q => q != "zzz")) none :=
  ⟨by decide,
    (claim_C9 strCmp [("foo", [(("bionic", "1.0"), ({"source"} : TypeSet))])] "zzz"
        (by decide)).1 ["zzz", "foo"] none⟩

/-- C4: within one listing's scan, a later binary record touching an
already-tracked name unions its types into the accumulated set — types
seen under lower versions are never discarded — while the tracked best
version is replaced exactly when the external comparator reports the
record's version strictly greater; names the record does not touch are
untouched. -/
theorem claim_C4 (cmp : Cmp) (arch : Option String) (vs : LocalVersions)
    (r : PackageRecord) (src : Option String) (n cv : String) (ts : TypeSet)
    (hbin : r.bin = some src) (hlook : alookup vs n = some (cv, ts)) :
    ∃ cv' ts',
      alookup (scanRecord cmp arch vs r) n = some (cv', ts') ∧
      ts ⊆ ts' ∧
      ((n = resolvedSource r.name src ∨ n = r.name) → cmp r.version cv = .gt →
        cv' = r.version) ∧
      ((n = resolvedSource r.name src ∨ n = r.name) → cmp r.version cv ≠ .gt → cv' = cv) ∧
      (¬(n = resolvedSource r.name src ∨ n = r.name) → cv' = cv ∧ ts' = ts) := by
  rw [scanRecord_eq cmp arch vs r src hbin]
  by_cases hres : r.name = resolvedSource r.name src
  · rw [if_pos hres]
    by_cases hn : n = resolvedSource r.name src
    · subst hn
      rw [alookup_applyTypes_self cmp r.version _ _ vs cv ts hlook]
      refine ⟨_, _, rfl, Finset.subset_union_left, ?_, ?_, ?_⟩
      · intro _ hgt
        rw [if_pos hgt]
      · intro _ hng
        rw [if_neg hng]
      · intro hcon
        exact absurd (Or.inl rfl) hcon
    · rw [alookup_applyTypes_ne cmp r.version _ _ n hn vs, hlook]
      have hn2 : ¬ n = r.name := fun hh => hn (hh.trans hres)
      exact ⟨cv, ts, rfl, Finset.Subset.refl ts,
        fun hor _ => absurd hor (not_or.mpr ⟨hn, hn2⟩),
        fun _ _ => rfl, fun _ => ⟨rfl, rfl⟩⟩
  · rw [if_neg hres]
    by_cases hn1 : n = resolvedSource r.name src
    · have hnname : n ≠ r.name := fun hh => hres (hh ▸ hn1)
      rw [alookup_applyTypes_ne cmp r.version r.name {archLabel arch} n hnname]
      subst hn1
      rw [alookup_applyTypes_self cmp r.version _ _ vs cv ts hlook]
      refine ⟨_, _, rfl, Finset.subset_union_left, ?_, ?_, ?_⟩
      · intro _ hgt
        rw [if_pos hgt]
      · intro _ hng
        rw [if_neg hng]
      · intro hcon
        exact absurd (Or.inl rfl) hcon
    · by_cases hn2 : n = r.name
      · have hinner :
            alookup (applyTypes cmp r.version (resolvedSource r.name src) {"source"} vs) n =
              some (cv, ts) := by
          rw [alookup_applyTypes_ne cmp r.version _ _ n hn1 vs]
          exact hlook
        subst hn2
        rw [alookup_applyTypes_self cmp r.version _ _ _ cv ts hinner]
        refine ⟨_, _, rfl, Finset.subset_union_left, ?_, ?_, ?_⟩
        · intro _ hgt
          rw [if_pos hgt]
        · intro _ hng
          rw [if_neg hng]
        · intro hcon
          exact absurd (Or.inr rfl) hcon
      · rw [alookup_applyTypes_ne cmp r.version r.name {archLabel arch} n hn2,
          alookup_applyTypes_ne cmp r.version _ _ n hn1 vs, hlook]
        exact ⟨cv, ts, rfl, Finset.Subset.refl ts,
          fun hor _ => absurd hor (not_or.mpr ⟨hn1, hn2⟩),
          fun _ _ => rfl, fun _ => ⟨rfl, rfl⟩⟩

/-- C4 witness: a record for "foo" at version "2.0" scanned over a local
state already tracking "foo" at "1.0" with types accumulated from an
earlier record. -/
theorem claim_C4_witness :
    (⟨"foo", "2.0", some none⟩ : PackageRecord).bin = some none ∧
    alookup ([("foo", "1.0", ({"i386"} : TypeSet))] : LocalVersions) "foo" =
      some ("1.0", ({"i386"} : TypeSet)) ∧
    ∃ cv' ts',
      alookup (scanRecord strCmp (some "amd64")
          ([("foo", "1.0", ({"i386"} : TypeSet))] : LocalVersions)
          (⟨"foo", "2.0", some none⟩ : PackageRecord)) "foo" = some (cv', ts') ∧
      ({"i386"} : TypeSet) ⊆ ts' ∧
      (("foo" = resolvedSource "foo" none ∨ "foo" = "foo") → strCmp "2.0" "1.0" = .gt →
        cv' = "2.0") ∧
      (("foo" = resolvedSource "foo" none ∨ "foo" = "foo") → strCmp "2.0" "1.0" ≠ .gt →
        cv' = "1.0") ∧
      (¬("foo" = resolvedSource "foo" none ∨ "foo" = "foo") → cv' = "1.0" ∧ ts' = {"i386"}) :=
  ⟨rfl, by decide,
    claim_C4 strCmp (some "amd64") [("foo", "1.0", ({"i386"} : TypeSet))]
      ⟨"foo", "2.0", some none⟩ none "foo" "1.0" {"i386"} rfl (by decide)⟩

/-- C8: a binary record scanned into a fresh local state emits exactly
two contributions keyed by the record's version: the "source" label at
the resolved source name, and the listing's architecture label — the
sentinel "unknown!" when the listing declares no architecture — at the
record's own name. -/
theorem claim_C8 (cmp : Cmp) (arch : Option String) (r : PackageRecord)
    (src : Option String) (hbin : r.bin = some src) :
    ∃ S T : TypeSet,
      alookup (scanRecord cmp arch [] r) (resolvedSource r.name src) = some (r.version, S) ∧
      "source" ∈ S ∧
      alookup (scanRecord cmp arch [] r) r.name = some (r.version, T) ∧
      archLabel arch ∈ T ∧
      (∀ q v ts, alookup (scanRecord cmp arch [] r) q = some (v, ts) →
        (q = resolvedSource r.name src ∨ q = r.name) ∧ v = r.version) ∧
      (arch = none → archLabel arch = "unknown!") := by
  rw [scanRecord_eq cmp arch [] r src hbin]
  by_cases hres : r.name = resolvedSource r.name src
  · rw [if_pos hres, ← hres]
    refine ⟨insert (archLabel arch) {"source"}, insert (archLabel arch) {"source"},
      ?_, Finset.mem_insert_of_mem (Finset.mem_singleton_self "source"),
      ?_, Finset.mem_insert_self _ _, ?_, fun h => by rw [h]; rfl⟩
    · simp [applyTypes, alookup]
    · simp [applyTypes, alookup]
    · intro q v ts h
      simp only [applyTypes, alookup] at h
      by_cases hq : q = r.name
      · rw [if_pos hq] at h
        injection h with hpair
        injection hpair with h1 _
        exact ⟨Or.inr hq, h1.symm⟩
      · rw [if_neg hq] at h
        exact nomatch h
  · rw [if_neg hres]
    refine ⟨{"source"}, {archLabel arch},
      ?_, Finset.mem_singleton_self _, ?_, Finset.mem_singleton_self _, ?_,
      fun h => by rw [h]; rfl⟩
    · simp [applyTypes, alookup, hres]
    · simp [applyTypes, alookup, hres]
    · intro q v ts h
      simp only [applyTypes, if_neg hres, alookup] at h
      by_cases hq1 : q = resolvedSource r.name src
      · rw [if_pos hq1] at h
        injection h with hpair
        injection hpair with h1 _
        exact ⟨Or.inl hq1, h1.symm⟩
      · rw [if_neg hq1] at h
        by_cases hq2 : q = r.name
        · rw [if_pos hq2] at h
          injection h with hpair
          injection hpair with h1 _
          exact ⟨Or.inr hq2, h1.symm⟩
        · rw [if_neg hq2] at h
          exact nomatch h

/-- C8 witness: a binary record "pkg" built from source "srcpkg" in a
listing with no declared architecture. -/
theorem claim_C8_witness :
    (⟨"pkg", "1.0", some (some "srcpkg")⟩ : PackageRecord).bin = some (some "srcpkg") ∧
    ∃ S T : TypeSet,
      alookup (scanRecord strCmp none []
          (⟨"pkg", "1.0", some (some "srcpkg")⟩ : PackageRecord))
        (resolvedSource "pkg" (some "srcpkg")) = some ("1.0", S) ∧
      "source" ∈ S ∧
      alookup (scanRecord strCmp none []
          (⟨"pkg", "1.0", some (some "srcpkg")⟩ : PackageRecord)) "pkg" = some ("1.0", T) ∧
      archLabel none ∈ T ∧
      (∀ q v ts,
        alookup (scanRecord strCmp none []
            (⟨"pkg", "1.0", some (some "srcpkg")⟩ : PackageRecord)) q = some (v, ts) →
        (q = resolvedSource "pkg" (some "srcpkg") ∨ q = "pkg") ∧ v = "1.0") ∧
      ((none : Option String) = none → archLabel none = "unknown!") :=
  ⟨rfl, claim_C8 strCmp none ⟨"pkg", "1.0", some (some "srcpkg")⟩ (some "srcpkg") rfl⟩

/-- C5: the merge step stores, at every (package, group key, version)
triple, exactly the union of every listing's contributed type set for
that triple — nothing dropped, nothing duplicated — and combining the
per-listing partial results in any other order yields the same content. -/
theorem claim_C5 (parts pt : List Contribution) (hperm : parts.Perm pt)
    (p : String) (k : String × String) :
    lookup2 (merge_listings parts) p k = contributionUnion parts p k ∧
    lookup2 (merge_listings pt) p k = contributionUnion parts p k := by
  have h1 : ∀ ts : List Contribution,
      lookup2 (merge_listings ts) p k = contributionUnion ts p k := by
    intro ts
    unfold merge_listings contributionUnion
    rw [lookup2_foldl_mergeOne]
    by_cases h : tripleTypes ts p k = []
    · simp [h, lookup2, alookup]
    · rw [if_neg h, if_neg h]
      have hnil : lookup2 ([] : MadisonMapping) p k = none := rfl
      rw [hnil]
      simp
  exact ⟨h1 parts, (h1 pt).trans (contributionUnion_perm parts pt hperm p k)⟩

/-- C5 witness: two contributions for the same triple combined in both
orders. -/
theorem claim_C5_witness :
    ([("foo", "bionic", "1.0", ({"source"} : TypeSet)),
        ("foo", "bionic", "1.0", ({"amd64"} : TypeSet))] : List Contribution).Perm
      [("foo", "bionic", "1.0", ({"amd64"} : TypeSet)),
        ("foo", "bionic", "1.0", ({"source"} : TypeSet))] ∧
    (lookup2 (merge_listings [("foo", "bionic", "1.0", ({"source"} : TypeSet)),
          ("foo", "bionic", "1.0", ({"amd64"} : TypeSet))]) "foo" ("bionic", "1.0") =
        contributionUnion [("foo", "bionic", "1.0", ({"source"} : TypeSet)),
          ("foo", "bionic", "1.0", ({"amd64"} : TypeSet))] "foo" ("bionic", "1.0") ∧
      lookup2 (merge_listings [("foo", "bionic", "1.0", ({"amd64"} : TypeSet)),
          ("foo", "bionic", "1.0", ({"source"} : TypeSet))]) "foo" ("bionic", "1.0") =
        contributionUnion [("foo", "bionic", "1.0", ({"source"} : TypeSet)),
          ("foo", "bionic", "1.0", ({"amd64"} : TypeSet))] "foo" ("bionic", "1.0")) :=
  ⟨by decide,
    claim_C5 [("foo", "bionic", "1.0", ({"source"} : TypeSet)),
        ("foo", "bionic", "1.0", ({"amd64"} : TypeSet))]
      [("foo", "bionic", "1.0", ({"amd64"} : TypeSet)),
        ("foo", "bionic", "1.0", ({"source"} : TypeSet))]
      (by decide) "foo" ("bionic", "1.0")⟩

/-- C6: under the spec's total-order contract for the external
comparator, every package's rows in the generated query result are
pairwise ordered ascending by version, equal versions ordered by group
key lexicographically ascending. -/
theorem claim_C6 (cmp : Cmp)
    (hS : ∀ a b, cmp b a = (cmp a b).swap)
    (hT : ∀ a b c, cmp a b ≠ .gt → cmp b c ≠ .gt → cmp a c ≠ .gt)
    (m : MadisonMapping) (packages : List String) (suite : Option String)
    (p : String) (rows : List MadisonOutputRecord)
    (hmem : (p, rows) ∈ generate_madison_structure cmp m packages suite) :
    rows.Pairwise (recordLe cmp) := by
  obtain ⟨e, _, hrows⟩ := mem_generate cmp m packages suite p rows hmem
  rw [hrows]
  exact processEntries_sorted cmp hS hT suite p e

/-- C6 witness: a package with rows at versions "1.0" and "2.0" generated
with the string comparator; the rows come out ascending. -/
theorem claim_C6_witness :
    (("pkg", [⟨"pkg", "1.0", "bionic", "source"⟩, ⟨"pkg", "2.0", "focal", "amd64"⟩]) ∈
        generate_madison_structure strCmp
          [("pkg", [(("focal", "2.0"), ({"amd64"} : TypeSet)),
            (("bionic", "1.0"), ({"source"} : TypeSet))])] ["pkg"] none) ∧
    List.Pairwise (recordLe strCmp)
      [⟨"pkg", "1.0", "bionic", "source"⟩, ⟨"pkg", "2.0", "focal", "amd64"⟩] :=
  ⟨by decide,
    claim_C6 strCmp strCmp_swap (fun a b c => strCmp_le_trans a b c)
      [("pkg", [(("focal", "2.0"), ({"amd64"} : TypeSet)),
        (("bionic", "1.0"), ({"source"} : TypeSet))])] ["pkg"] none "pkg"
      [⟨"pkg", "1.0", "bionic", "source"⟩, ⟨"pkg", "2.0", "focal", "amd64"⟩] (by decide)⟩

/-- C7: the rendered architectures string is the comma-join of a parts
list that places "source" first whenever the set contains it, followed by
the remaining labels in ascending string order; the parts are exactly the
set's labels, without duplicates. -/
theorem claim_C7 (types : TypeSet) :
    renderTypes types = String.intercalate ", " (typeParts types) ∧
    ("source" ∈ types → (typeParts types).head? = some "source") ∧
    List.Sorted strLe ((typeParts types).drop (if "source" ∈ types then 1 else 0)) ∧
    (∀ t, t ∈ typeParts types ↔ t ∈ types) ∧
    (typeParts types).Nodup := by
  refine ⟨rfl, ?_, ?_, ?_, ?_⟩
  · intro h
    simp [typeParts, h]
  · by_cases h : "source" ∈ types
    · simp only [typeParts, if_pos h, List.singleton_append, List.drop_succ_cons,
        List.drop_zero]
      exact msort_sorted _
    · simp only [typeParts, if_neg h, List.nil_append, List.drop_zero]
      exact msort_sorted _
  · intro t
    by_cases h : "source" ∈ types
    · simp only [typeParts, if_pos h, List.singleton_append, List.mem_cons, mem_msort]
      constructor
      · intro hor
        rcases hor with rfl | ht
        · exact h
        · exact (Finset.mem_erase.mp (Finset.mem_def.mpr ht)).2
      · intro ht
        by_cases hts : t = "source"
        · exact Or.inl hts
        · exact Or.inr (Finset.mem_def.mp (Finset.mem_erase.mpr ⟨hts, ht⟩))
    · simp only [typeParts, if_neg h, List.nil_append, mem_msort]
      constructor
      · intro ht
        exact (Finset.mem_erase.mp (Finset.mem_def.mpr ht)).2
      · intro ht
        have hts : t ≠ "source" := fun hh => h (hh ▸ ht)
        exact Finset.mem_def.mp (Finset.mem_erase.mpr ⟨hts, ht⟩)
  · by_cases h : "source" ∈ types
    · simp only [typeParts, if_pos h, List.singleton_append]
      refine List.nodup_cons.mpr ⟨?_, msort_nodup _ (types.erase "source").nodup⟩
      intro hmem
      exact (Finset.mem_erase.mp (Finset.mem_def.mpr ((mem_msort _ _).mp hmem))).1 rfl
    · simp only [typeParts, if_neg h, List.nil_append]
      exact msort_nodup _ (types.erase "source").nodup

/-- C7 witness: a type set containing "source" and two architectures. -/
theorem claim_C7_witness :
    "source" ∈ ({"i386", "source", "amd64"} : TypeSet) ∧
    (typeParts ({"i386", "source", "amd64"} : TypeSet)).head? = some "source" :=
  ⟨by decide, (claim_C7 {"i386", "source", "amd64"}).2.1 (by decide)⟩

/-- C10: under the spec's total-order contract for the external
comparator, `do_madison` is a pure function of the mapping's content:
two snapshots holding equal maps — whatever internal storage order their
hash maps ended up with — produce character-for-character identical
output strings for every request list and filter. -/
theorem claim_C10 (cmp : Cmp)
    (hS : ∀ a b, cmp b a = (cmp a b).swap)
    (hT : ∀ a b c, cmp a b ≠ .gt → cmp b c ≠ .gt → cmp a c ≠ .gt)
    (hA : ∀ a b, cmp a b = .eq → a = b)
    (m₁ m₂ : MadisonMapping) (hm : MappingEquiv m₁ m₂)
    (packages : List String) (suite : Option String) :
    do_madison cmp m₁ packages suite = do_madison cmp m₂ packages suite := by
  have hrows :
      do_madison_rows cmp m₁ packages suite = do_madison_rows cmp m₂ packages suite := by
    rw [do_madison_rows_eq, do_madison_rows_eq]
    apply List.flatMap_congr
    intro q _
    have hrel := hm q
    unfold rowsFor
    cases h₁ : alookup m₁ q with
    | none =>
      cases h₂ : alookup m₂ q with
      | none => rfl
      | some e₂ =>
        rw [h₁, h₂] at hrel
        cases hrel
    | some e₁ =>
      cases h₂ : alookup m₂ q with
      | none =>
        rw [h₁, h₂] at hrel
        cases hrel
      | some e₂ =>
        rw [h₁, h₂] at hrel
        cases hrel with
        | some hee =>
          simp only [Option.map_some', Option.getD_some]
          exact processEntries_congr cmp hS hT hA suite q e₁ e₂ hee.1 hee.2
  unfold do_madison
  rw [hrows]

/-- C10 witness: the same two-entry mapping stored in two different inner
orders yields identical rendered output. -/
theorem claim_C10_witness :
    MappingEquiv
        [("pkg", [(("focal", "2.0"), ({"amd64"} : TypeSet)),
          (("bionic", "1.0"), ({"source"} : TypeSet))])]
        [("pkg", [(("bionic", "1.0"), ({"source"} : TypeSet)),
          (("focal", "2.0"), ({"amd64"} : TypeSet))])] ∧
    do_madison strCmp
        [("pkg", [(("focal", "2.0"), ({"amd64"} : TypeSet)),
          (("bionic", "1.0"), ({"source"} : TypeSet))])] ["pkg"] none =
      do_madison strCmp
        [("pkg", [(("bionic", "1.0"), ({"source"} : TypeSet)),
          (("focal", "2.0"), ({"amd64"} : TypeSet))])] ["pkg"] none := by
  have hequiv : MappingEquiv
      [("pkg", [(("focal", "2.0"), ({"amd64"} : TypeSet)),
        (("bionic", "1.0"), ({"source"} : TypeSet))])]
      [("pkg", [(("bionic", "1.0"), ({"source"} : TypeSet)),
        (("focal", "2.0"), ({"amd64"} : TypeSet))])] := by
    intro p
    by_cases hp : p = "pkg"
    · subst hp
      have h1 : alookup
          ([("pkg", [(("focal", "2.0"), ({"amd64"} : TypeSet)),
            (("bionic", "1.0"), ({"source"} : TypeSet))])] : MadisonMapping) "pkg" =
          some [(("focal", "2.0"), ({"amd64"} : TypeSet)),
            (("bionic", "1.0"), ({"source"} : TypeSet))] := by decide
      have h2 : alookup
          ([("pkg", [(("bionic", "1.0"), ({"source"} : TypeSet)),
            (("focal", "2.0"), ({"amd64"} : TypeSet))])] : MadisonMapping) "pkg" =
          some [(("bionic", "1.0"), ({"source"} : TypeSet)),
            (("focal", "2.0"), ({"amd64"} : TypeSet))] := by decide
      rw [h1, h2]
      exact Option.Rel.some ⟨by decide, by decide⟩
    · have h1 : alookup
          ([("pkg", [(("focal", "2.0"), ({"amd64"} : TypeSet)),
            (("bionic", "1.0"), ({"source"} : TypeSet))])] : MadisonMapping) p = none := by
        simp [alookup, hp]
      have h2 : alookup
          ([("pkg", [(("bionic", "1.0"), ({"source"} : TypeSet)),
            (("focal", "2.0"), ({"amd64"} : TypeSet))])] : MadisonMapping) p = none := by
        simp [alookup, hp]
      rw [h1, h2]
      exact Option.Rel.none
  exact ⟨hequiv,
    claim_C10 strCmp strCmp_swap (fun a b c => strCmp_le_trans a b c)
      (fun a b => (strCmp_eq_iff a b).mp) _ _ hequiv ["pkg"] none⟩
